import Mathlib

/-!
Shallow embedding of the two core subsystems of the neologism-detection
repository: the dictionary-entry extractor (`filter_dict_creator.py`) and
the neologism classifier (`neo_classifier.py`).  Lines and tokens are
modelled as `List Char` (Python strings), sets as lists with membership or
as boolean membership functions, and the two compiled regular expressions
are compiled into explicit greedy-backtracking matchers.
-/

/-- Character class of the compiled regex `[A-Za-z\-']` used by
`entry_pattern` in `filter_dict_creator.py`. -/
def isEntryChar (c : Char) : Bool :=
  (decide ('A' ≤ c) && decide (c ≤ 'Z')) ||
  (decide ('a' ≤ c) && decide (c ≤ 'z')) ||
  decide (c = '-') || decide (c = '\'')

/-- Character class `[a-zA-Z]` of the compiled regex `combine_hyphen`. -/
def isAsciiLetter (c : Char) : Bool :=
  (decide ('a' ≤ c) && decide (c ≤ 'z')) ||
  (decide ('A' ≤ c) && decide (c ≤ 'Z'))

/-- Greedy backtracking for `entry_pattern = ^[A-Za-z\-']+(?=, {2})`
applied at position 0: try the run length `k`, longest first, and accept
when the lookahead `, {2}` (a comma followed by two spaces) holds right
after the consumed run.  `entry_backtrack line k` tries lengths
`k, k-1, ..., 1`. -/
def entry_backtrack (line : List Char) : Nat → Option (List Char)
  | 0 => none
  | k + 1 =>
    if (line.drop (k + 1)).take 3 = [',', ' ', ' '] then some (line.take (k + 1))
    else entry_backtrack line k

/-- Result of `entry_pattern.match(line)` (the matched text, group 0), as
the regex engine computes it: the greedy `+` first consumes the maximal
run of `[A-Za-z\-']` characters and then backtracks until the lookahead
succeeds. -/
def entry_pattern_match (line : List Char) : Option (List Char) :=
  entry_backtrack line (line.takeWhile isEntryChar).length

/-- Greedy backtracking for the tail `([a-zA-Z]+)-$` of `combine_hyphen`,
matching inside `rest` (the line from position 2 on): try run length `k`,
longest first; after the run the regex must consume `-` and reach the end
of the string (Python `$` also matches just before a single final
newline). -/
def hyphen_backtrack (rest : List Char) : Nat → Option (List Char)
  | 0 => none
  | k + 1 =>
    if rest.drop (k + 1) = ['-'] ∨ rest.drop (k + 1) = ['-', '\n'] then some (rest.take (k + 1))
    else hyphen_backtrack rest k

/-- Result of `combine_hyphen.match(line)` for
`combine_hyphen = re.compile(r". ([a-zA-Z]+)-$")`, returning group 1.
`re.match` anchors at position 0: the `.` consumes the first character
(any character other than a newline), the literal space the second, and
the captured letter run plus `-$` must exhaust the line. -/
def combine_hyphen_match (line : List Char) : Option (List Char) :=
  match line with
  | c0 :: c1 :: rest =>
    if c0 ≠ '\n' ∧ c1 = ' ' then hyphen_backtrack rest (rest.takeWhile isAsciiLetter).length
    else none
  | _ => none

/-- Embedding of `handle_hyphenated_words(incomplete_word, line, combine_hyphen)`;
returns the pair `(incomplete_word, previous_incomplete_word)` exactly as
the Python function does (the empty list plays the role of the falsy
empty string). -/
def handle_hyphenated_words (incomplete_word line : List Char) :
    List Char × List Char :=
  match combine_hyphen_match line with
  | some g =>
    if incomplete_word ≠ [] then (incomplete_word ++ g, [])
    else (g ++ ['-'], incomplete_word)
  | none => ([], incomplete_word)

/-- Embedding of `process_line_for_entry(line, entry_pattern, incomplete_word)`;
returns `(current_entry, incomplete_word)`, where a matched entry has any
carried incomplete word prepended and clears the buffer. -/
def process_line_for_entry (line incomplete_word : List Char) :
    Option (List Char) × List Char :=
  match entry_pattern_match line with
  | some m =>
    if incomplete_word ≠ [] then (some (incomplete_word ++ m), [])
    else (some m, [])
  | none => (none, incomplete_word)

/-- Embedding of `should_skip_entry(current_entry, previous_entry, first_letters)`.
The Python function mutates the set `first_letters`; here the (possibly
grown) set is returned as the second component.  The source indexes
`current_entry[0]` only after `previous_entry` is nonempty; in
`extract_entries_from_lines` the candidate entry is always a nonempty
string, so the `[]` case for the candidate is unreachable there. -/
def should_skip_entry (current_entry previous_entry first_letters : List Char) :
    Bool × List Char :=
  match previous_entry with
  | [] => (false, first_letters)
  | p :: _ =>
    match current_entry with
    | [] => (false, first_letters)
    | c :: _ =>
      let prev_letter := p.toLower
      let curr_letter := c.toLower
      if 1 < ((curr_letter.toNat : Int) - (prev_letter.toNat : Int)).natAbs then
        if curr_letter ∈ first_letters then (false, first_letters)
        else (true, curr_letter :: first_letters)
      else (false, first_letters)

/-- Embedding of `update_bracket_stack(line, bracket_stack)`: push `(char, 0)`
for each opening bracket, pop the most recent frame for each closing one
(popping an empty stack is a no-op). -/
def update_bracket_stack (line : List Char) (bracket_stack : List (Char × Nat)) :
    List (Char × Nat) :=
  line.foldl
    (fun st c =>
      if c = '[' ∨ c = '(' then st ++ [(c, 0)]
      else if c = ')' ∨ c = ']' then st.dropLast
      else st)
    bracket_stack

/-- Embedding of `check_brackets_and_close(bracket_stack, empty_line)`: the
source first overwrites each frame slot with `None` (when its age has
reached 10 or the line is empty) or the aged frame, then compacts the
list, dropping the `None` slots; `reduceOption` performs the compaction. -/
def check_brackets_and_close (bracket_stack : List (Char × Nat)) (empty_line : Bool) :
    List (Char × Nat) :=
  (bracket_stack.map
    (fun b => if 10 ≤ b.2 ∨ empty_line = true then none else some (b.1, b.2 + 1))).reduceOption

/-- Embedding of `is_inside_brackets(bracket_stack)`. -/
def is_inside_brackets (bracket_stack : List (Char × Nat)) : Bool :=
  !bracket_stack.isEmpty

/-- Embedding of Python `line.find(sub)`: index of the first occurrence of
`sub` as a contiguous substring, `-1` when absent. -/
def str_find (line sub : List Char) : Int :=
  match line with
  | [] => if sub = [] then 0 else -1
  | x :: xs =>
    if sub.isPrefixOf (x :: xs) then 0
    else
      let r := str_find xs sub
      if r = -1 then -1 else r + 1

/-- The bracket-position scan of lines 85-89 of `filter_dict_creator.py`:
`bracket_index` is the earliest position of `(` or `[` in the line, `-1`
when neither occurs. -/
def bracket_index (line : List Char) : Int :=
  List.foldl
    (fun bi c =>
      let index := str_find line [c]
      if index ≠ -1 ∧ (bi = -1 ∨ index < bi) then index else bi)
    (-1) ['(', '[']

/-- State threaded through the loop of `extract_entries_from_lines`. -/
structure ExtState where
  entries : List (List Char)
  previous_line_is_entry : Bool
  previous_entry : List Char
  incomplete_word : List Char
  bracket_stack : List (Char × Nat)
  first_letters : List Char
deriving DecidableEq

/-- Initial loop state of `extract_entries_from_lines`. -/
def init_state : ExtState := ⟨[], false, [], [], [], []⟩

/-- Lines 113-126 of the loop body of `extract_entries_from_lines`: the
hyphenation bookkeeping, the two skip heuristics (the `or` in the source
short-circuits, so `should_skip_entry` does not run — and does not grow
`first_letters` — when the previous line was an entry), and the append of
an accepted entry.  Reached only by a line whose candidate entry survived
the bracket branches; `s` already carries the updated bracket stack and
the incomplete word returned by `process_line_for_entry`. -/
def after_brackets (s : ExtState) (line current_entry : List Char) : ExtState :=
  let hw := handle_hyphenated_words s.incomplete_word line
  if hw.2 ≠ [] then
    ⟨s.entries, s.previous_line_is_entry, s.previous_entry, hw.1, s.bracket_stack,
      s.first_letters⟩
  else if s.previous_line_is_entry then
    ⟨s.entries, false, s.previous_entry, hw.1, s.bracket_stack, s.first_letters⟩
  else
    let sk := should_skip_entry current_entry s.previous_entry s.first_letters
    if sk.1 then
      ⟨s.entries, false, s.previous_entry, hw.1, s.bracket_stack, sk.2⟩
    else
      ⟨s.entries ++ [current_entry], true, current_entry, hw.1, s.bracket_stack, sk.2⟩

/-- One iteration of the loop of `extract_entries_from_lines` (lines
78-126 of the source).  A matched `current_entry` is always a nonempty
string, so Python's truthiness test `if current_entry and ...` coincides
with the `some` case of the match. -/
def process_one_line (s : ExtState) (line : List Char) : ExtState :=
  let pr := process_line_for_entry line s.incomplete_word
  let bi := bracket_index line
  let st := check_brackets_and_close (update_bracket_stack line s.bracket_stack) line.isEmpty
  match pr.1 with
  | some current_entry =>
    if bi ≠ -1 ∧ str_find line current_entry < bi then
      after_brackets
        ⟨s.entries, s.previous_line_is_entry, s.previous_entry, pr.2, st, s.first_letters⟩
        line current_entry
    else
      if st ≠ [] then
        ⟨s.entries, s.previous_line_is_entry, s.previous_entry, pr.2, st, s.first_letters⟩
      else
        after_brackets
          ⟨s.entries, s.previous_line_is_entry, s.previous_entry, pr.2, st, s.first_letters⟩
          line current_entry
  | none =>
    ⟨s.entries, false, s.previous_entry, pr.2, st, s.first_letters⟩

/-- Embedding of `extract_entries_from_lines(lines)`. -/
def extract_entries_from_lines (lines : List (List Char)) : List (List Char) :=
  (lines.foldl process_one_line init_state).entries

/-- Output finalization of `save_entries_to_json`: `sorted(set(entries))`,
deduplication followed by a lexicographic sort. -/
def save_entries_to_json (entries : List String) : List String :=
  (entries.dedup).insertionSort (fun a b => a ≤ b)

/-- Composition of extraction and finalization (the body of
`extract_entries`, minus the file I/O). -/
def extract_and_save (lines : List (List Char)) : List String :=
  save_entries_to_json ((extract_entries_from_lines lines).map String.mk)

/-- Per-token linguistic metadata consumed by the classifier
(`neo_classifier.py`): the value stored under each key of
`filtered_data["aggregated_tokens"]`. -/
structure TokenData where
  «lemma» : List Char
  pos : List Char
  full_form : List Char
  frequency : Nat
deriving DecidableEq

/-- Classification loop of `process_genre` (lines 66-86 of
`neo_classifier.py`): walks the token mapping in iteration order and
builds the pair `(neo_combinations, novel_neologisms)`.  The combined
reference dictionary is a boolean membership function, mirroring the
Python set. -/
def process_genre_loop (combined_dict : List Char → Bool) :
    List (List Char × TokenData) →
      List (List Char × TokenData) × List (List Char × TokenData)
  | [] => ([], [])
  | (token, data) :: rest =>
    if token.length ≤ 1 then process_genre_loop combined_dict rest
    else
      let token_lower := token.map Char.toLower
      let lemma_lower := data.«lemma».map Char.toLower
      if lemma_lower.length ≤ 1 then process_genre_loop combined_dict rest
      else if combined_dict token_lower then process_genre_loop combined_dict rest
      else if combined_dict lemma_lower then
        let r := process_genre_loop combined_dict rest
        ((token, data) :: r.1, r.2)
      else
        let r := process_genre_loop combined_dict rest
        (r.1, (token, data) :: r.2)

/-- Shape of the two JSON documents written by `process_genre`. -/
structure GenreOutput where
  aggregated_tokens : List (List Char × TokenData)
  total_tokens : Nat
  unique_tokens : Nat
deriving DecidableEq

/-- Embedding of `process_genre` minus the file I/O: classify the tokens
and wrap each bucket with its derived counts (lines 89-99 of
`neo_classifier.py`). -/
def process_genre (combined_dict : List Char → Bool)
    (aggregated_tokens : List (List Char × TokenData)) : GenreOutput × GenreOutput :=
  let r := process_genre_loop combined_dict aggregated_tokens
  (⟨r.1, r.1.length, r.1.length⟩, ⟨r.2, r.2.length, r.2.length⟩)

/-! Supporting lemmas. -/

/-- Positions strictly inside the maximal `[A-Za-z\-']` run cannot start
the separator `,  `, because the character there is an entry character
and not a comma. -/
lemma not_sep_inside_run (l : List Char) (m : Nat)
    (hm : m < (l.takeWhile isEntryChar).length) :
    ¬ (l.drop m).take 3 = [',', ' ', ' '] := by
  intro h
  have hpre := List.takeWhile_prefix (l := l) (p := isEntryChar)
  have hlen : (l.takeWhile isEntryChar).length ≤ l.length := hpre.length_le
  have hml : m < l.length := lt_of_lt_of_le hm hlen
  have hdrop : l.drop m = l[m] :: l.drop (m + 1) := List.drop_eq_getElem_cons hml
  rw [hdrop, List.take_succ_cons] at h
  have hcomma : l[m] = ',' := by
    injection h
  have hrun : (l.takeWhile isEntryChar)[m] = l[m] := hpre.getElem hm
  have hmem : (l.takeWhile isEntryChar)[m] ∈ l.takeWhile isEntryChar :=
    List.getElem_mem hm
  have hchar := List.mem_takeWhile_imp hmem
  rw [hrun, hcomma] at hchar
  exact absurd hchar (by decide)

/-- Soundness of the backtracking loop: any successful match, started at a
length not exceeding the maximal run, returns exactly the maximal run,
which is nonempty and followed by the separator. -/
lemma entry_backtrack_sound (l : List Char) (e : List Char) :
    ∀ k, k ≤ (l.takeWhile isEntryChar).length → entry_backtrack l k = some e →
      e = l.takeWhile isEntryChar ∧ l.takeWhile isEntryChar ≠ [] ∧
        (l.drop (l.takeWhile isEntryChar).length).take 3 = [',', ' ', ' '] := by
  intro k
  induction k with
  | zero => intro _ h; exact absurd h (by simp [entry_backtrack])
  | succ k ih =>
    intro hk h
    rw [entry_backtrack] at h
    by_cases hc : (l.drop (k + 1)).take 3 = [',', ' ', ' ']
    · rw [if_pos hc] at h
      have hkn : k + 1 = (l.takeWhile isEntryChar).length := by
        rcases Nat.lt_or_ge (k + 1) (l.takeWhile isEntryChar).length with hlt | hge
        · exact absurd hc (not_sep_inside_run l (k + 1) hlt)
        · omega
      have htake : l.take (k + 1) = l.takeWhile isEntryChar := by
        rw [hkn]
        exact (List.prefix_iff_eq_take.mp (List.takeWhile_prefix _)).symm
      refine ⟨by rw [← Option.some_inj.mp h, htake], ?_, ?_⟩
      · intro hnil
        rw [hnil] at hkn
        simp at hkn
      · rw [← hkn]; exact hc
    · rw [if_neg hc] at h
      exact ih (by omega) h

/-- Characterization of `entry_pattern.match`: it yields a match exactly
when the maximal run of `[A-Za-z\-']` characters at the start of the line
is nonempty and immediately followed by a comma and two spaces, and the
match is that maximal run. -/
lemma entry_pattern_match_some (l : List Char) (e : List Char) :
    entry_pattern_match l = some e ↔
      (l.takeWhile isEntryChar ≠ [] ∧
        (l.drop (l.takeWhile isEntryChar).length).take 3 = [',', ' ', ' '] ∧
        e = l.takeWhile isEntryChar) := by
  constructor
  · intro h
    unfold entry_pattern_match at h
    have := entry_backtrack_sound l e (l.takeWhile isEntryChar).length (le_refl _) h
    exact ⟨this.2.1, this.2.2, this.1⟩
  · rintro ⟨hne, hsep, he⟩
    have hn : (l.takeWhile isEntryChar).length ≠ 0 := by
      simpa using hne
    obtain ⟨m, hm⟩ : ∃ m, (l.takeWhile isEntryChar).length = m + 1 :=
      ⟨(l.takeWhile isEntryChar).length - 1, by omega⟩
    unfold entry_pattern_match
    rw [hm, entry_backtrack, if_pos (by rw [← hm]; exact hsep)]
    rw [he, ← hm]
    rw [← List.prefix_iff_eq_take.mp (List.takeWhile_prefix _)]

/-- Two-phase mark-then-compact pruning equals a filter of the young
frames on a nonempty line followed by aging each survivor by one. -/
lemma check_brackets_eq_filter_map (st : List (Char × Nat)) (e : Bool) :
    check_brackets_and_close st e =
      (st.filter (fun b => !(decide (10 ≤ b.2) || e))).map (fun b => (b.1, b.2 + 1)) := by
  induction st with
  | nil => rfl
  | cons b st ih =>
    simp only [check_brackets_and_close, List.map_cons] at ih ⊢
    by_cases hb : 10 ≤ b.2 ∨ e = true
    · have hb' : (!(decide (10 ≤ b.2) || e)) = false := by
        rcases hb with hb | hb <;> simp [hb]
      rw [if_pos hb, List.reduceOption_cons_of_none, ih, List.filter_cons, hb']
      simp only [Bool.false_eq_true, if_false]
    · have hb' : (!(decide (10 ≤ b.2) || e)) = true := by
        push_neg at hb
        simp [hb.1, hb.2]
      rw [if_neg hb, List.reduceOption_cons_of_some, ih, List.filter_cons, hb']
      simp only [if_pos, List.map_cons]

/-- Every frame surviving one pruning pass has age at most 10: a survivor
had age at most 9 and was aged exactly once. -/
lemma mem_check_brackets_le (st : List (Char × Nat)) (e : Bool) :
    ∀ b ∈ check_brackets_and_close st e, b.2 ≤ 10 := by
  intro b hb
  rw [check_brackets_eq_filter_map] at hb
  obtain ⟨a, ha, rfl⟩ := List.mem_map.mp hb
  have := List.of_mem_filter ha
  simp only [Bool.not_eq_true', Bool.or_eq_false_iff, decide_eq_false_iff_not] at this
  omega

/-- Every branch of the loop body replaces the bracket stack by the same
pruned update; the later entry bookkeeping never touches it. -/
lemma process_one_line_stack (s : ExtState) (line : List Char) :
    (process_one_line s line).bracket_stack =
      check_brackets_and_close (update_bracket_stack line s.bracket_stack) line.isEmpty := by
  simp only [process_one_line]
  rcases (process_line_for_entry line s.incomplete_word).1 with _ | ce
  · rfl
  · dsimp only
    split
    · simp only [after_brackets]
      split
      · rfl
      · split
        · rfl
        · split <;> rfl
    · split
      · rfl
      · simp only [after_brackets]
        split
        · rfl
        · split
          · rfl
          · split <;> rfl

/-- Both output buckets of the classification loop are built from
elements of the input mapping. -/
lemma process_genre_loop_subset (d : List Char → Bool)
    (ts : List (List Char × TokenData)) :
    (∀ p ∈ (process_genre_loop d ts).1, p ∈ ts) ∧
      (∀ p ∈ (process_genre_loop d ts).2, p ∈ ts) := by
  induction ts with
  | nil => simp [process_genre_loop]
  | cons q ts ih =>
    obtain ⟨token, data⟩ := q
    simp only [process_genre_loop]
    split
    · exact ⟨fun p hp => List.mem_cons_of_mem _ (ih.1 p hp),
        fun p hp => List.mem_cons_of_mem _ (ih.2 p hp)⟩
    · split
      · exact ⟨fun p hp => List.mem_cons_of_mem _ (ih.1 p hp),
          fun p hp => List.mem_cons_of_mem _ (ih.2 p hp)⟩
      · split
        · exact ⟨fun p hp => List.mem_cons_of_mem _ (ih.1 p hp),
            fun p hp => List.mem_cons_of_mem _ (ih.2 p hp)⟩
        · split
          · refine ⟨fun p hp => ?_, fun p hp => List.mem_cons_of_mem _ (ih.2 p hp)⟩
            rcases List.mem_cons.mp hp with h | h
            · exact h ▸ List.mem_cons_self _ _
            · exact List.mem_cons_of_mem _ (ih.1 p h)
          · refine ⟨fun p hp => List.mem_cons_of_mem _ (ih.1 p hp), fun p hp => ?_⟩
            rcases List.mem_cons.mp hp with h | h
            · exact h ▸ List.mem_cons_self _ _
            · exact List.mem_cons_of_mem _ (ih.2 p h)

/-- The `first_letters` set only ever grows inside `should_skip_entry`. -/
lemma should_skip_entry_mono (ce pe fl : List Char) :
    ∀ x ∈ fl, x ∈ (should_skip_entry ce pe fl).2 := by
  intro x hx
  unfold should_skip_entry
  rcases pe with _ | ⟨p, pe⟩
  · exact hx
  · rcases ce with _ | ⟨c, ce⟩
    · exact hx
    · dsimp only
      split
      · split
        · exact hx
        · exact List.mem_cons_of_mem _ hx
      · exact hx

/-- On a line whose candidate entry matched, `process_line_for_entry`
clears the incomplete-word buffer. -/
lemma process_line_for_entry_some_snd (line iw ce : List Char)
    (h : (process_line_for_entry line iw).1 = some ce) :
    (process_line_for_entry line iw).2 = [] := by
  unfold process_line_for_entry at h ⊢
  cases hm : entry_pattern_match line with
  | none => rw [hm] at h; exact absurd h (by simp)
  | some m => dsimp only; split <;> rfl

/-- With an empty incomplete-word buffer, `handle_hyphenated_words` never
reports a previous incomplete word. -/
lemma handle_hyphenated_words_nil_snd (line : List Char) :
    (handle_hyphenated_words [] line).2 = [] := by
  unfold handle_hyphenated_words
  rcases combine_hyphen_match line with _ | g
  · rfl
  · simp

/-- On a matching line the proposed entry is the match with the carried
incomplete word prepended and the buffer is cleared (the `iw = []` branch
of the source returns the bare match, which coincides with `[] ++ m`). -/
lemma process_line_for_entry_of_match (line iw m : List Char)
    (hm : entry_pattern_match line = some m) :
    process_line_for_entry line iw = (some (iw ++ m), []) := by
  unfold process_line_for_entry
  rw [hm]
  dsimp only
  split
  · rfl
  · rename_i h
    rw [not_ne_iff.mp h]
    rfl

/-- On a non-matching line nothing is proposed and the buffer is kept. -/
lemma process_line_for_entry_of_no_match (line iw : List Char)
    (hm : entry_pattern_match line = none) :
    process_line_for_entry line iw = (none, iw) := by
  unfold process_line_for_entry
  rw [hm]

/-- Headword proposal as the specification words it: a maximal run of one
or more ASCII letters, hyphens, or apostrophes anchored at line start,
immediately followed by two literal spaces, with any carried incomplete
word prepended.  Stated only for comparison with the source's
`process_line_for_entry`. -/
def spec_headword_proposal (line incomplete_word : List Char) : Option (List Char) :=
  let run := line.takeWhile isEntryChar
  if run ≠ [] ∧ (line.drop run.length).take 2 = [' ', ' '] then some (incomplete_word ++ run)
  else none

/-- C1, counterexample: on the line `ab  x` the maximal run `ab` of
headword characters is immediately followed by two literal spaces, so the
claim proposes the entry `ab`, but the extractor proposes nothing — the
compiled pattern requires a comma before the two spaces. -/
theorem c1_headword_separator_counterexample :
    spec_headword_proposal ['a', 'b', ' ', ' ', 'x'] [] = some ['a', 'b'] ∧
      (process_line_for_entry ['a', 'b', ' ', ' ', 'x'] []).1 = none := by decide

/-- C1, amended: the extractor proposes a headword entry exactly when the
line starts with a maximal run of one or more ASCII letters, hyphens, or
apostrophes that is immediately followed by a comma and two literal
spaces; the proposed entry is that run with any carried incomplete word
prepended. -/
theorem c1_headword_proposal_amended (line iw e : List Char) :
    (process_line_for_entry line iw).1 = some e ↔
      (line.takeWhile isEntryChar ≠ [] ∧
        (line.drop (line.takeWhile isEntryChar).length).take 3 = [',', ' ', ' '] ∧
        e = iw ++ line.takeWhile isEntryChar) := by
  cases hm : entry_pattern_match line with
  | none =>
    rw [process_line_for_entry_of_no_match line iw hm]
    constructor
    · intro h
      exact absurd h (by simp)
    · rintro ⟨hne, hsep, _⟩
      have := (entry_pattern_match_some line (line.takeWhile isEntryChar)).mpr ⟨hne, hsep, rfl⟩
      rw [hm] at this
      exact absurd this (by simp)
  | some m =>
    rw [process_line_for_entry_of_match line iw m hm]
    obtain ⟨hne, hsep, hrun⟩ := (entry_pattern_match_some line m).mp hm
    subst hrun
    constructor
    · intro h
      exact ⟨hne, hsep, (Option.some_inj.mp h).symm⟩
    · rintro ⟨_, _, he⟩
      rw [he]

/-- A token key absent from the input mapping is absent from both output
buckets. -/
lemma not_mem_buckets_of_not_key (d : List Char → Bool)
    (ts : List (List Char × TokenData)) (t : List Char) (td : TokenData)
    (hkey : t ∉ ts.map Prod.fst) :
    (t, td) ∉ (process_genre_loop d ts).1 ∧ (t, td) ∉ (process_genre_loop d ts).2 := by
  constructor <;> intro h
  · exact hkey (List.mem_map.mpr ⟨(t, td), (process_genre_loop_subset d ts).1 _ h, rfl⟩)
  · exact hkey (List.mem_map.mpr ⟨(t, td), (process_genre_loop_subset d ts).2 _ h, rfl⟩)

/-- Classifying one more token never disturbs the membership of a
different token pair in either bucket. -/
lemma process_genre_loop_cons_mem (d : List Char → Bool) (u t : List Char)
    (ud td : TokenData) (ts : List (List Char × TokenData))
    (hne : ((t, td) : List Char × TokenData) ≠ (u, ud)) :
    ((t, td) ∈ (process_genre_loop d ((u, ud) :: ts)).1 ↔
        (t, td) ∈ (process_genre_loop d ts).1) ∧
      ((t, td) ∈ (process_genre_loop d ((u, ud) :: ts)).2 ↔
        (t, td) ∈ (process_genre_loop d ts).2) := by
  simp only [process_genre_loop]
  split
  · exact ⟨Iff.rfl, Iff.rfl⟩
  · split
    · exact ⟨Iff.rfl, Iff.rfl⟩
    · split
      · exact ⟨Iff.rfl, Iff.rfl⟩
      · split
        · refine ⟨⟨fun h => (List.mem_cons.mp h).resolve_left hne,
            fun h => List.mem_cons_of_mem _ h⟩, Iff.rfl⟩
        · refine ⟨Iff.rfl, ⟨fun h => (List.mem_cons.mp h).resolve_left hne,
            fun h => List.mem_cons_of_mem _ h⟩⟩

/-- C2: for every token longer than one character whose lemma is longer
than one character, the classifier performs the two-tier lowercase
lookup: a token whose lowercase surface form is in the reference set is
Known and lands in neither output; otherwise a token whose lowercase
lemma is in the reference set lands exactly in the neo-combinations
bucket; otherwise it lands exactly in the novel-neologisms bucket. -/
theorem c2_two_tier_classification (d : List Char → Bool)
    (ts : List (List Char × TokenData)) (hnd : (ts.map Prod.fst).Nodup)
    (t : List Char) (td : TokenData) (hmem : (t, td) ∈ ts)
    (h1 : 1 < t.length) (h2 : 1 < td.«lemma».length) :
    (d (t.map Char.toLower) = true →
      (t, td) ∉ (process_genre_loop d ts).1 ∧ (t, td) ∉ (process_genre_loop d ts).2) ∧
    (d (t.map Char.toLower) = false → d (td.«lemma».map Char.toLower) = true →
      (t, td) ∈ (process_genre_loop d ts).1 ∧ (t, td) ∉ (process_genre_loop d ts).2) ∧
    (d (t.map Char.toLower) = false → d (td.«lemma».map Char.toLower) = false →
      (t, td) ∉ (process_genre_loop d ts).1 ∧ (t, td) ∈ (process_genre_loop d ts).2) := by
  induction ts with
  | nil => cases hmem
  | cons q ts ih =>
    obtain ⟨u, ud⟩ := q
    have hnd0 : (u :: ts.map Prod.fst).Nodup := by
      simp only [List.map_cons] at hnd
      exact hnd
    have hu : u ∉ ts.map Prod.fst := (List.nodup_cons.mp hnd0).1
    have hnd' : (ts.map Prod.fst).Nodup := (List.nodup_cons.mp hnd0).2
    rcases List.mem_cons.mp hmem with heq | hmem'
    · injection heq with ht htd
      subst ht
      subst htd
      have habs := not_mem_buckets_of_not_key d ts t td hu
      simp only [process_genre_loop]
      rw [if_neg (by omega : ¬ t.length ≤ 1),
        if_neg (by simp only [List.length_map]; omega)]
      by_cases hd1 : d (t.map Char.toLower) = true
      · rw [if_pos hd1]
        exact ⟨fun _ => habs, fun h _ => absurd hd1 (by simp [h]),
          fun h _ => absurd hd1 (by simp [h])⟩
      · rw [if_neg hd1]
        by_cases hd2 : d (td.«lemma».map Char.toLower) = true
        · rw [if_pos hd2]
          exact ⟨fun h => absurd h (by simp [hd1]), fun _ _ =>
            ⟨List.mem_cons_self _ _, habs.2⟩,
            fun _ h => absurd hd2 (by simp [h])⟩
        · rw [if_neg hd2]
          exact ⟨fun h => absurd h (by simp [hd1]),
            fun _ h => absurd h (by simp [hd2]),
            fun _ _ => ⟨habs.1, List.mem_cons_self _ _⟩⟩
    · have hne : ((t, td) : List Char × TokenData) ≠ (u, ud) := by
        intro h
        injection h with hh _
        subst hh
        exact hu (List.mem_map.mpr ⟨(t, td), hmem', rfl⟩)
      have key := process_genre_loop_cons_mem d u t ud td ts hne
      have IH := ih hnd' hmem'
      simp only [key.1, key.2]
      exact IH

/-- C2, witness: reference set containing only `walk`; `walked` with
lemma `walk` lands exactly in the neo-combinations bucket. -/
theorem c2_two_tier_classification_w :
    (['w', 'a', 'l', 'k', 'e', 'd'],
        (⟨['w', 'a', 'l', 'k'], [], ['w', 'a', 'l', 'k', 'e', 'd'], 1⟩ : TokenData)) ∈
      (process_genre_loop (fun s => decide (s = ['w', 'a', 'l', 'k']))
        [(['w', 'a', 'l', 'k', 'e', 'd'],
          ⟨['w', 'a', 'l', 'k'], [], ['w', 'a', 'l', 'k', 'e', 'd'], 1⟩)]).1 ∧
    (['w', 'a', 'l', 'k', 'e', 'd'],
        (⟨['w', 'a', 'l', 'k'], [], ['w', 'a', 'l', 'k', 'e', 'd'], 1⟩ : TokenData)) ∉
      (process_genre_loop (fun s => decide (s = ['w', 'a', 'l', 'k']))
        [(['w', 'a', 'l', 'k', 'e', 'd'],
          ⟨['w', 'a', 'l', 'k'], [], ['w', 'a', 'l', 'k', 'e', 'd'], 1⟩)]).2 :=
  (c2_two_tier_classification (fun s => decide (s = ['w', 'a', 'l', 'k']))
    [(['w', 'a', 'l', 'k', 'e', 'd'],
      ⟨['w', 'a', 'l', 'k'], [], ['w', 'a', 'l', 'k', 'e', 'd'], 1⟩)]
    (by decide)
    ['w', 'a', 'l', 'k', 'e', 'd']
    ⟨['w', 'a', 'l', 'k'], [], ['w', 'a', 'l', 'k', 'e', 'd'], 1⟩
    (by decide) (by decide) (by decide)).2.1 (by decide) (by decide)

/-- A key in an output bucket of one more classification step is the new
token's key or a key already produced by the remaining steps. -/
lemma process_genre_loop_keys_cons (d : List Char → Bool) (u : List Char)
    (ud : TokenData) (ts : List (List Char × TokenData)) :
    (∀ x ∈ ((process_genre_loop d ((u, ud) :: ts)).1).map Prod.fst,
        x = u ∨ x ∈ ((process_genre_loop d ts).1).map Prod.fst) ∧
      (∀ x ∈ ((process_genre_loop d ((u, ud) :: ts)).2).map Prod.fst,
        x = u ∨ x ∈ ((process_genre_loop d ts).2).map Prod.fst) := by
  simp only [process_genre_loop]
  split
  · exact ⟨fun x hx => Or.inr hx, fun x hx => Or.inr hx⟩
  · split
    · exact ⟨fun x hx => Or.inr hx, fun x hx => Or.inr hx⟩
    · split
      · exact ⟨fun x hx => Or.inr hx, fun x hx => Or.inr hx⟩
      · split
        · refine ⟨fun x hx => ?_, fun x hx => Or.inr hx⟩
          rw [List.map_cons] at hx
          exact List.mem_cons.mp hx
        · refine ⟨fun x hx => Or.inr hx, fun x hx => ?_⟩
          rw [List.map_cons] at hx
          exact List.mem_cons.mp hx

/-- C3: a token of length at most one, or whose lemma has length at most
one, is skipped entirely: its key appears in neither output bucket, so it
contributes to no output mapping or count. -/
theorem c3_degenerate_tokens_skipped (d : List Char → Bool)
    (ts : List (List Char × TokenData)) (hnd : (ts.map Prod.fst).Nodup)
    (t : List Char) (td : TokenData) (hmem : (t, td) ∈ ts)
    (hdeg : t.length ≤ 1 ∨ td.«lemma».length ≤ 1) :
    t ∉ ((process_genre_loop d ts).1).map Prod.fst ∧
      t ∉ ((process_genre_loop d ts).2).map Prod.fst := by
  induction ts with
  | nil => cases hmem
  | cons q ts ih =>
    obtain ⟨u, ud⟩ := q
    have hnd0 : (u :: ts.map Prod.fst).Nodup := by
      simp only [List.map_cons] at hnd
      exact hnd
    have hu : u ∉ ts.map Prod.fst := (List.nodup_cons.mp hnd0).1
    have hnd' : (ts.map Prod.fst).Nodup := (List.nodup_cons.mp hnd0).2
    have habs : t ∉ ts.map Prod.fst →
        t ∉ ((process_genre_loop d ts).1).map Prod.fst ∧
          t ∉ ((process_genre_loop d ts).2).map Prod.fst := by
      intro hus
      constructor <;> intro h
      · obtain ⟨p, hp, hp'⟩ := List.mem_map.mp h
        exact hus (List.mem_map.mpr ⟨p, (process_genre_loop_subset d ts).1 _ hp, hp'⟩)
      · obtain ⟨p, hp, hp'⟩ := List.mem_map.mp h
        exact hus (List.mem_map.mpr ⟨p, (process_genre_loop_subset d ts).2 _ hp, hp'⟩)
    rcases List.mem_cons.mp hmem with heq | hmem'
    · injection heq with ht htd
      subst ht
      subst htd
      simp only [process_genre_loop]
      by_cases hl : t.length ≤ 1
      · rw [if_pos hl]
        exact habs hu
      · rw [if_neg hl]
        rcases hdeg with hdeg | hdeg
        · exact absurd hdeg hl
        · rw [if_pos (by simp only [List.length_map]; exact hdeg)]
          exact habs hu
    · have hut : u ≠ t := fun h => hu (h ▸ List.mem_map.mpr ⟨(t, td), hmem', rfl⟩)
      have IH := ih hnd' hmem'
      have key := process_genre_loop_keys_cons d u ud ts
      constructor <;> intro h
      · rcases key.1 t h with h' | h'
        · exact hut h'.symm
        · exact IH.1 h'
      · rcases key.2 t h with h' | h'
        · exact hut h'.symm
        · exact IH.2 h'

/-- C3, witness: the single-character token `a` is excluded from both
output buckets. -/
theorem c3_degenerate_tokens_skipped_w :
    ['a'] ∉ ((process_genre_loop (fun s => decide (s = ['w', 'a', 'l', 'k']))
        [(['a'], (⟨['a'], [], ['a'], 1⟩ : TokenData))]).1).map Prod.fst ∧
      ['a'] ∉ ((process_genre_loop (fun s => decide (s = ['w', 'a', 'l', 'k']))
        [(['a'], (⟨['a'], [], ['a'], 1⟩ : TokenData))]).2).map Prod.fst :=
  c3_degenerate_tokens_skipped (fun s => decide (s = ['w', 'a', 'l', 'k']))
    [(['a'], ⟨['a'], [], ['a'], 1⟩)] (by decide) ['a'] ⟨['a'], [], ['a'], 1⟩
    (by decide) (by decide)

/-- C4 failing input, line 1: `some text eti-`. -/
def c4_line1 : List Char :=
  ['s', 'o', 'm', 'e', ' ', 't', 'e', 'x', 't', ' ', 'e', 't', 'i', '-']

/-- C4 failing input, line 2: `mology follows, more text`. -/
def c4_line2 : List Char :=
  ['m', 'o', 'l', 'o', 'g', 'y', ' ', 'f', 'o', 'l', 'l', 'o', 'w', 's', ',', ' ',
   'm', 'o', 'r', 'e', ' ', 't', 'e', 'x', 't']

/-- C4: on the specification's own hyphenation test the extractor neither
merges `eti-` with `mology` nor extracts anything: the anchored
`combine_hyphen` pattern cannot match `some text eti-`, and the
hyphenation bookkeeping is only reached on lines that already matched an
entry, so no incomplete word is ever carried. -/
theorem c4_hyphenation_not_carried :
    extract_entries_from_lines [c4_line1, c4_line2] = [] ∧
      (List.foldl process_one_line init_state [c4_line1, c4_line2]).incomplete_word = [] ∧
      combine_hyphen_match c4_line1 = none := by decide

/-- Entry bookkeeping after the bracket branches only grows the
`first_letters` set. -/
lemma after_brackets_first_letters_mono (s : ExtState) (line ce : List Char) :
    ∀ x ∈ s.first_letters, x ∈ (after_brackets s line ce).first_letters := by
  intro x hx
  simp only [after_brackets]
  split
  · exact hx
  · split
    · exact hx
    · split
      · exact should_skip_entry_mono ce s.previous_entry s.first_letters x hx
      · exact should_skip_entry_mono ce s.previous_entry s.first_letters x hx

/-- The whole loop body only grows the `first_letters` set. -/
lemma process_one_line_first_letters_mono (s : ExtState) (line : List Char) :
    ∀ x ∈ s.first_letters, x ∈ (process_one_line s line).first_letters := by
  intro x hx
  simp only [process_one_line]
  cases hpr : (process_line_for_entry line s.incomplete_word).1 with
  | none => exact hx
  | some ce =>
    dsimp only
    split
    · exact after_brackets_first_letters_mono _ line ce x hx
    · split
      · exact hx
      · exact after_brackets_first_letters_mono _ line ce x hx

/-- C5: when the candidate entry's first letter is at character-code
distance greater than one from the last accepted entry's first letter
(case-insensitively), the heuristic skips the candidate once and records
the letter if it is new, does not skip when the letter was already
recorded, never skips any candidate starting with a recorded letter, and
the recorded set only grows as further lines are processed. -/
theorem c5_letter_jump_heuristic (c p : Char) (ce pe fl : List Char)
    (hce : ce.head? = some c) (hpe : pe.head? = some p)
    (hjump : 1 < ((c.toLower.toNat : Int) - (p.toLower.toNat : Int)).natAbs) :
    (c.toLower ∉ fl → should_skip_entry ce pe fl = (true, c.toLower :: fl)) ∧
    (c.toLower ∈ fl → should_skip_entry ce pe fl = (false, fl)) ∧
    (∀ c' ce' pe' fl', ce'.head? = some c' → c'.toLower = c.toLower → c.toLower ∈ fl' →
      (should_skip_entry ce' pe' fl').1 = false) ∧
    (∀ s : ExtState, ∀ line : List Char, c.toLower ∈ s.first_letters →
      c.toLower ∈ (process_one_line s line).first_letters) := by
  rcases pe with _ | ⟨p0, pe⟩
  · exact absurd hpe (by simp)
  rcases ce with _ | ⟨c0, ce⟩
  · exact absurd hce (by simp)
  have hc0 : c0 = c := by simpa using hce
  have hp0 : p0 = p := by simpa using hpe
  subst hc0
  subst hp0
  refine ⟨?_, ?_, ?_, ?_⟩
  · intro hnew
    simp only [should_skip_entry]
    rw [if_pos hjump, if_neg hnew]
  · intro hold
    simp only [should_skip_entry]
    rw [if_pos hjump, if_pos hold]
  · intro c' ce' pe' fl' hce' hlow hmem'
    rcases pe' with _ | ⟨p0', pe'⟩
    · rfl
    rcases ce' with _ | ⟨c0', ce'⟩
    · rfl
    have hc0' : c0' = c' := by simpa using hce'
    subst hc0'
    simp only [should_skip_entry]
    split
    · rw [if_pos (hlow ▸ hmem')]
    · rfl
  · intro s line hmem'
    exact process_one_line_first_letters_mono s line _ hmem'

/-- C5, witness: with previous entry `apple` and candidate `zebra` the
heuristic skips once and records `z`. -/
theorem c5_letter_jump_heuristic_w :
    should_skip_entry ['z', 'e', 'b', 'r', 'a'] ['a', 'p', 'p', 'l', 'e'] [] =
      (true, ['z']) :=
  (c5_letter_jump_heuristic 'z' 'a' ['z', 'e', 'b', 'r', 'a'] ['a', 'p', 'p', 'l', 'e'] []
    (by decide) (by decide) (by decide)).1 (by decide)

/-- Branch B of the loop body: no candidate entry matched. -/
lemma process_one_line_none (s : ExtState) (line : List Char)
    (hce : (process_line_for_entry line s.incomplete_word).1 = none) :
    process_one_line s line =
      ⟨s.entries, false, s.previous_entry, (process_line_for_entry line s.incomplete_word).2,
        check_brackets_and_close (update_bracket_stack line s.bracket_stack) line.isEmpty,
        s.first_letters⟩ := by
  simp only [process_one_line]
  rw [hce]

/-- Branch A of the loop body: a candidate matched and a bracket starts
strictly after the position where the entry is found in the line. -/
lemma process_one_line_someA (s : ExtState) (line ce : List Char)
    (hce : (process_line_for_entry line s.incomplete_word).1 = some ce)
    (hA : bracket_index line ≠ -1 ∧ str_find line ce < bracket_index line) :
    process_one_line s line =
      after_brackets
        ⟨s.entries, s.previous_line_is_entry, s.previous_entry,
          (process_line_for_entry line s.incomplete_word).2,
          check_brackets_and_close (update_bracket_stack line s.bracket_stack) line.isEmpty,
          s.first_letters⟩ line ce := by
  simp only [process_one_line]
  rw [hce]
  dsimp only
  rw [if_pos hA]

/-- Branch C of the loop body with a nonempty pruned stack: the line is
considered inside bracketed material and skipped. -/
lemma process_one_line_someB (s : ExtState) (line ce : List Char)
    (hce : (process_line_for_entry line s.incomplete_word).1 = some ce)
    (hnA : ¬(bracket_index line ≠ -1 ∧ str_find line ce < bracket_index line))
    (hst : check_brackets_and_close (update_bracket_stack line s.bracket_stack) line.isEmpty ≠ []) :
    process_one_line s line =
      ⟨s.entries, s.previous_line_is_entry, s.previous_entry,
        (process_line_for_entry line s.incomplete_word).2,
        check_brackets_and_close (update_bracket_stack line s.bracket_stack) line.isEmpty,
        s.first_letters⟩ := by
  simp only [process_one_line]
  rw [hce]
  dsimp only
  rw [if_neg hnA, if_pos hst]

/-- Branch C of the loop body with an empty pruned stack: the candidate
proceeds to the entry bookkeeping. -/
lemma process_one_line_someC (s : ExtState) (line ce : List Char)
    (hce : (process_line_for_entry line s.incomplete_word).1 = some ce)
    (hnA : ¬(bracket_index line ≠ -1 ∧ str_find line ce < bracket_index line))
    (hst : ¬ check_brackets_and_close (update_bracket_stack line s.bracket_stack) line.isEmpty ≠ []) :
    process_one_line s line =
      after_brackets
        ⟨s.entries, s.previous_line_is_entry, s.previous_entry,
          (process_line_for_entry line s.incomplete_word).2,
          check_brackets_and_close (update_bracket_stack line s.bracket_stack) line.isEmpty,
          s.first_letters⟩ line ce := by
  simp only [process_one_line]
  rw [hce]
  dsimp only
  rw [if_neg hnA, if_neg hst]

/-- Entry bookkeeping of a line that follows an accepted entry, with an
empty incomplete-word buffer: the candidate is dropped and the flag is
cleared. -/
lemma after_brackets_flag_true (s : ExtState) (line ce : List Char)
    (hiw : s.incomplete_word = []) (hflag : s.previous_line_is_entry = true) :
    after_brackets s line ce =
      ⟨s.entries, false, s.previous_entry,
        (handle_hyphenated_words s.incomplete_word line).1, s.bracket_stack,
        s.first_letters⟩ := by
  simp only [after_brackets]
  rw [hiw]
  rw [if_neg (by simp [handle_hyphenated_words_nil_snd]), if_pos hflag]

/-- Entry bookkeeping of an accepted line: empty incomplete-word buffer,
flag clear, skip heuristic negative — the candidate is appended. -/
lemma after_brackets_append (s : ExtState) (line ce : List Char)
    (hiw : s.incomplete_word = []) (hflag : s.previous_line_is_entry = false)
    (hskip : (should_skip_entry ce s.previous_entry s.first_letters).1 = false) :
    after_brackets s line ce =
      ⟨s.entries ++ [ce], true, ce, (handle_hyphenated_words s.incomplete_word line).1,
        s.bracket_stack, (should_skip_entry ce s.previous_entry s.first_letters).2⟩ := by
  simp only [after_brackets]
  rw [hiw]
  rw [if_neg (by simp [handle_hyphenated_words_nil_snd]), hflag]
  rw [if_neg (by simp), if_neg (by rw [hskip]; simp)]

/-- C6 counterexample input, line 1: `(a` (opens a bracket, no entry). -/
def c6_line1 : List Char := ['(', 'a']

/-- C6 counterexample input, line 2: `b,  y (c` (entry `b`, bracket after
the headword, accepted). -/
def c6_line2 : List Char := ['b', ',', ' ', ' ', 'y', ' ', '(', 'c']

/-- C6 counterexample input, line 3: `c,  z` (entry `c`, skipped by the
inside-brackets test). -/
def c6_line3 : List Char := ['c', ',', ' ', ' ', 'z']

/-- C6 counterexample input, line 4: `d,  x))` (entry `d`, brackets all
closed). -/
def c6_line4 : List Char := ['d', ',', ' ', ' ', 'x', ')', ')']

/-- C6, counterexample: line 3 immediately follows the accepted entry `b`
of line 2, appends nothing (it is skipped by the inside-brackets test),
and leaves the previous-line-was-entry flag still set — the flag is not
cleared on the one line following an acceptance — so the suppression
fires later: the entry `d` of line 4, whose preceding line was not
accepted, is suppressed and the run extracts only `b`. -/
theorem c6_flag_counterexample :
    (List.foldl process_one_line init_state [c6_line1, c6_line2, c6_line3]).entries =
        (List.foldl process_one_line init_state [c6_line1, c6_line2]).entries ∧
      (List.foldl process_one_line init_state
          [c6_line1, c6_line2, c6_line3]).previous_line_is_entry = true ∧
      extract_entries_from_lines [c6_line1, c6_line2, c6_line3, c6_line4] = [['b']] := by
  decide

/-- Condition under which the loop body skips a matched line by the
inside-brackets test, mirroring the branch structure of lines 91-111 of
the source. -/
def reaches_bracket_skip (s : ExtState) (line : List Char) : Bool :=
  match (process_line_for_entry line s.incomplete_word).1 with
  | none => false
  | some ce =>
    if bracket_index line ≠ -1 ∧ str_find line ce < bracket_index line then false
    else !(check_brackets_and_close (update_bracket_stack line s.bracket_stack)
      line.isEmpty).isEmpty

/-- C6, amended: a line processed while the previous-line-was-entry flag
is set never appends an entry, and the flag is cleared on that line in
every case except one: when the line's matched candidate is skipped by
the inside-brackets test, the flag survives, so the suppression can apply
to a later line instead of only the line immediately following the
accepted one. -/
theorem c6_repeat_suppression_amended (s : ExtState) (line : List Char)
    (hflag : s.previous_line_is_entry = true) :
    (process_one_line s line).entries = s.entries ∧
      ((process_one_line s line).previous_line_is_entry = true ↔
        reaches_bracket_skip s line = true) := by
  cases hce : (process_line_for_entry line s.incomplete_word).1 with
  | none =>
    rw [process_one_line_none s line hce]
    unfold reaches_bracket_skip
    rw [hce]
    exact ⟨rfl, by simp⟩
  | some ce =>
    have hiw := process_line_for_entry_some_snd line s.incomplete_word ce hce
    by_cases hA : bracket_index line ≠ -1 ∧ str_find line ce < bracket_index line
    · rw [process_one_line_someA s line ce hce hA,
        after_brackets_flag_true
          ⟨s.entries, s.previous_line_is_entry, s.previous_entry,
          (process_line_for_entry line s.incomplete_word).2,
          check_brackets_and_close (update_bracket_stack line s.bracket_stack) line.isEmpty,
          s.first_letters⟩ line ce hiw hflag]
      unfold reaches_bracket_skip
      rw [hce]
      dsimp only
      rw [if_pos hA]
      exact ⟨rfl, by simp⟩
    · by_cases hst :
        check_brackets_and_close (update_bracket_stack line s.bracket_stack) line.isEmpty ≠ []
      · rw [process_one_line_someB s line ce hce hA hst]
        unfold reaches_bracket_skip
        rw [hce]
        dsimp only
        rw [if_neg hA]
        refine ⟨rfl, ?_⟩
        constructor
        · intro _
          simpa using hst
        · intro _
          exact hflag
      · rw [process_one_line_someC s line ce hce hA hst,
          after_brackets_flag_true
            ⟨s.entries, s.previous_line_is_entry, s.previous_entry,
          (process_line_for_entry line s.incomplete_word).2,
          check_brackets_and_close (update_bracket_stack line s.bracket_stack) line.isEmpty,
          s.first_letters⟩ line ce hiw hflag]
        unfold reaches_bracket_skip
        rw [hce]
        dsimp only
        rw [if_neg hA]
        refine ⟨rfl, ?_⟩
        constructor
        · intro h
          exact absurd h (by simp)
        · intro h
          rw [not_ne_iff.mp hst] at h
          exact absurd h (by simp)

/-- C6, witness: a line following an accepted entry has its entry
suppressed and the flag cleared when no bracket skip occurs. -/
theorem c6_repeat_suppression_amended_w :
    (process_one_line ⟨[['a']], true, ['a'], [], [], []⟩ ['b', ',', ' ', ' ']).entries =
      [['a']] :=
  (c6_repeat_suppression_amended ⟨[['a']], true, ['a'], [], [], []⟩ ['b', ',', ' ', ' ']
    rfl).1

/-- C7: the finalization of any extracted entry sequence is duplicate-free
and lexicographically sorted, and finalizing twice yields the same list
as finalizing once. -/
theorem c7_finalization_properties (lines : List (List Char)) (entries : List String) :
    (extract_and_save lines).Nodup ∧
      List.Sorted (fun a b => a ≤ b) (extract_and_save lines) ∧
      save_entries_to_json (save_entries_to_json entries) = save_entries_to_json entries := by
  have hsorted : ∀ l : List String, List.Sorted (fun a b => a ≤ b) (save_entries_to_json l) :=
    fun l => List.sorted_insertionSort _ _
  have hnodup : ∀ l : List String, (save_entries_to_json l).Nodup := fun l =>
    ((List.perm_insertionSort _ _).nodup_iff).mpr (List.nodup_dedup l)
  refine ⟨hnodup _, hsorted _, ?_⟩
  unfold save_entries_to_json
  have h1 : (List.insertionSort (fun a b => a ≤ b) entries.dedup).Nodup := hnodup entries
  have h2 : List.Sorted (fun a b => a ≤ b) (List.insertionSort (fun a b => a ≤ b) entries.dedup) :=
    hsorted entries
  rw [List.dedup_eq_self.mpr h1]
  exact h2.insertionSort_eq

/-- C8: both subsystems are total functions of their input in this
embedding, and degenerate inputs produce empty, well-formed outputs: an
empty line sequence extracts and finalizes to the empty list, and an
empty token mapping classifies to two empty buckets with zero counts. -/
theorem c8_degenerate_inputs_wellformed (d : List Char → Bool) :
    extract_entries_from_lines [] = [] ∧ extract_and_save [] = [] ∧
      process_genre d [] = (⟨[], 0, 0⟩, ⟨[], 0, 0⟩) :=
  ⟨rfl, rfl, rfl⟩

/-- Bound preservation along the fold: starting from any state whose
frames are aged at most 10, every state reached by processing further
lines keeps all frames aged at most 10. -/
lemma foldl_bracket_stack_le (lines : List (List Char)) :
    ∀ s : ExtState, (∀ b ∈ s.bracket_stack, b.2 ≤ 10) →
      ∀ b ∈ (List.foldl process_one_line s lines).bracket_stack, b.2 ≤ 10 := by
  induction lines with
  | nil => intro s hs; exact hs
  | cons line lines ih =>
    intro s _ b hb
    refine ih (process_one_line s line) ?_ b hb
    intro b' hb'
    rw [process_one_line_stack] at hb'
    exact mem_check_brackets_le _ _ b' hb'

/-- C9: pruning ages every kept frame by exactly one and removes a frame
exactly when its age has reached 10 or the line is empty; consequently
every frame on the stack after any number of processed lines has age at
most 10. -/
theorem c9_bracket_aging (st : List (Char × Nat)) (e : Bool) :
    check_brackets_and_close st e =
      (st.filter (fun b => !(decide (10 ≤ b.2) || e))).map (fun b => (b.1, b.2 + 1)) ∧
      (∀ b ∈ check_brackets_and_close st e, b.2 ≤ 10) ∧
      (∀ lines : List (List Char),
        ∀ b ∈ (List.foldl process_one_line init_state lines).bracket_stack, b.2 ≤ 10) :=
  ⟨check_brackets_eq_filter_map st e, mem_check_brackets_le st e,
    fun lines => foldl_bracket_stack_le lines init_state (by intro b hb; cases hb)⟩

/-- C9, witness: a fresh frame pushed on line `(a` survives the first
pruning pass with age 1, within the bound. -/
theorem c9_bracket_aging_w :
    (('(', 1) ∈ check_brackets_and_close [('(', 0)] false) ∧
      ((('(', 1) : Char × Nat)).2 ≤ 10 :=
  ⟨by decide, (c9_bracket_aging [('(', 0)] false).2.1 ('(', 1) (by decide)⟩

/-- C10: a matched line with a bracket strictly after the position where
the entry is found is processed as a valid entry without consulting the
inside-brackets test — its entry is appended even when the pruned stack
still holds open frames carried over from earlier lines — whereas a
matched line with no bracket after the headword is skipped exactly when
the pruned stack is nonempty. -/
theorem c10_bracket_after_headword (s : ExtState) (line ce : List Char)
    (hce : (process_line_for_entry line s.incomplete_word).1 = some ce)
    (hflag : s.previous_line_is_entry = false)
    (hskip : (should_skip_entry ce s.previous_entry s.first_letters).1 = false) :
    ((bracket_index line ≠ -1 ∧ str_find line ce < bracket_index line) →
      (process_one_line s line).entries = s.entries ++ [ce]) ∧
    (¬(bracket_index line ≠ -1 ∧ str_find line ce < bracket_index line) →
      check_brackets_and_close (update_bracket_stack line s.bracket_stack) line.isEmpty ≠ [] →
      (process_one_line s line).entries = s.entries) := by
  have hiw := process_line_for_entry_some_snd line s.incomplete_word ce hce
  constructor
  · intro hA
    rw [process_one_line_someA s line ce hce hA,
      after_brackets_append
        ⟨s.entries, s.previous_line_is_entry, s.previous_entry,
          (process_line_for_entry line s.incomplete_word).2,
          check_brackets_and_close (update_bracket_stack line s.bracket_stack) line.isEmpty,
          s.first_letters⟩ line ce hiw hflag hskip]
  · intro hnA hst
    rw [process_one_line_someB s line ce hce hnA hst]

/-- C10, witness: with an open frame already on the stack, the line
`b,  y (c` (bracket after the headword) still gets its entry `b`
appended. -/
theorem c10_bracket_after_headword_w :
    (process_one_line ⟨[], false, [], [], [('(', 1)], []⟩
        ['b', ',', ' ', ' ', 'y', ' ', '(', 'c']).entries = [] ++ [['b']] :=
  (c10_bracket_after_headword ⟨[], false, [], [], [('(', 1)], []⟩
    ['b', ',', ' ', ' ', 'y', ' ', '(', 'c'] ['b'] (by decide) rfl (by decide)).1
    (by decide)
